import Mathlib

/-!
Shallow embedding of the virtual-memory simulator in `main.py`
(class `MemorySimulator` and its helpers), together with proofs of the
specification's testable properties.

Modelling conventions:
* Python dicts become association lists (`List (Nat × α)`) with Python's
  dict semantics: assignment to an existing key updates the value in
  place (keeping its position, which is the dict iteration order),
  assignment to a fresh key appends at the end, deletion removes the
  entry.  `lookupA`, `insertA`, `eraseA` implement exactly this.
* Python runtime exceptions (KeyError on a dict access, IndexError on
  `deque.popleft` from an empty deque, KeyError from
  `OrderedDict.move_to_end` on an absent key) are modelled by `Option`:
  a function returns `none` when the Python code would raise.
* `heapq` heaps of reference positions are modelled as ascending sorted
  lists: positions are pushed in ascending order in
  `_preprocess_opt_references`, so the heap always pops them back in
  ascending order; popping the minimum is taking the head.
* The simulator state carries ghost history fields (`loadLog`,
  `evictRecords`, `frameLoadPos`) marked below.  They record events for
  the correctness statements only and influence no simulated behaviour.
* `frame_count` is a Python `int`, hence is modelled as `Int` (it can be
  zero or negative; the constructor performs no validation).
-/

namespace VMSim

/-- A memory reference, as produced by `load_trace_file`:
`(page_number, operation)` where the operation is the second token of the
trace line (the code expects `"R"` or `"W"` but never validates it). -/
abbrev Ref := Nat × String

/-- Python `str.lower()` (ASCII case mapping, which covers every policy
name the program compares against). -/
def pyLower (s : String) : String :=
  String.mk (s.data.map fun c =>
    if 'A' ≤ c ∧ c ≤ 'Z' then Char.ofNat (c.toNat + 32) else c)

/-- Python `str.upper()` (ASCII case mapping). -/
def pyUpper (s : String) : String :=
  String.mk (s.data.map fun c =>
    if 'a' ≤ c ∧ c ≤ 'z' then Char.ofNat (c.toNat - 32) else c)

/-! ### Association lists with Python-dict semantics -/

/-- `d[k]`, as an `Option`: first entry with the given key. -/
def lookupA {α : Type} : List (Nat × α) → Nat → Option α
  | [], _ => none
  | (k, v) :: rest, key => if k = key then some v else lookupA rest key

/-- `d[k] = v`: update in place if the key is present (keeping dict
iteration order), otherwise append at the end. -/
def insertA {α : Type} : List (Nat × α) → Nat → α → List (Nat × α)
  | [], key, val => [(key, val)]
  | (k, v) :: rest, key, val =>
      if k = key then (k, val) :: rest else (k, v) :: insertA rest key val

/-- `del d[k]`: remove the entry with the given key (first occurrence). -/
def eraseA {α : Type} : List (Nat × α) → Nat → List (Nat × α)
  | [], _ => []
  | (k, v) :: rest, key => if k = key then rest else (k, v) :: eraseA rest key

/-! ### Simulator state

All fields of the Python object `MemorySimulator`, plus ghost history. -/

/-- The state of a `MemorySimulator` object.

`frameTable` maps `frame_num ↦ (page_num, dirty)`, mirroring
`self.frame_table[frame_num] = {'page_num': X, 'dirty': b}`.

Ghost fields (no counterpart in the Python object, used only to state
correctness properties; they never influence any branch):
* `loadLog`: pages in the order they were freshly loaded into a frame;
* `evictRecords`: one record `(victim_page, load_pos, evict_pos, was_dirty)`
  per eviction, in eviction order;
* `frameLoadPos`: for each frame, the reference position at which its
  current page was loaded. -/
structure SimState where
  frameCount : Int
  policy : String
  pageTable : List (Nat × Nat)
  frameTable : List (Nat × Nat × Bool)
  dirtyPages : List Nat
  pageFaults : Nat
  diskWrites : Nat
  replacements : Nat
  hits : Nat
  totalAccesses : Nat
  opReads : Nat
  opWrites : Nat
  pageAccessFrequency : List (Nat × Nat)
  fifoQueue : List Nat
  lruCache : List (Nat × Nat)
  optFutureRefs : List (Nat × List Nat)
  nextRef : List (Nat × Option Nat)
  loadLog : List Nat
  evictRecords : List (Nat × Nat × Nat × Bool)
  frameLoadPos : List (Nat × Nat)
  deriving DecidableEq

/-- `MemorySimulator.__init__(frame_count, replacement_policy)`:
stores the lower-cased policy name and empty structures.  No validation
of the policy name or the frame count is performed. -/
def mkSimulator (frameCount : Int) (replacementPolicy : String) : SimState :=
  { frameCount := frameCount
    policy := pyLower replacementPolicy
    pageTable := []
    frameTable := []
    dirtyPages := []
    pageFaults := 0
    diskWrites := 0
    replacements := 0
    hits := 0
    totalAccesses := 0
    opReads := 0
    opWrites := 0
    pageAccessFrequency := []
    fifoQueue := []
    lruCache := []
    optFutureRefs := []
    nextRef := []
    loadLog := []
    evictRecords := []
    frameLoadPos := [] }

/-! ### OPT preprocessing (`_preprocess_opt_references`) -/

/-- First pass of `_preprocess_opt_references`: `page_positions[page]`
collects the positions of each page, in ascending order, keyed in order
of first appearance (Python dict insertion order). -/
def collectGo : List Ref → Nat → List (Nat × List Nat) → List (Nat × List Nat)
  | [], _, acc => acc
  | (p, _) :: rest, pos, acc =>
      match lookupA acc p with
      | none => collectGo rest (pos + 1) (acc ++ [(p, [pos])])
      | some l => collectGo rest (pos + 1) (insertA acc p (l ++ [pos]))

def collectPositions (refs : List Ref) : List (Nat × List Nat) :=
  collectGo refs 0 []

/-- Seeding loop of `_preprocess_opt_references`: for each page (in dict
order) pop the smallest position off its heap into `next_ref`.  The heap
holds its positions in ascending order, so the pop takes the head. -/
def seedNextRef : List (Nat × List Nat) →
    List (Nat × List Nat) × List (Nat × Option Nat)
  | [] => ([], [])
  | (p, l) :: rest =>
      let (fr, nr) := seedNextRef rest
      match l with
      | [] => ((p, []) :: fr, nr)
      | x :: xs => ((p, xs) :: fr, (p, some x) :: nr)

/-- `_preprocess_opt_references(references)`. -/
def preprocessOpt (s : SimState) (refs : List Ref) : SimState :=
  { s with optFutureRefs := (seedNextRef (collectPositions refs)).1
           nextRef := (seedNextRef (collectPositions refs)).2 }

/-! ### `_update_opt_next_ref` -/

/-- `_update_opt_next_ref(page_num, current_pos)`.  Note that when
`next_ref[page]` is Python `None`, the guard `current_pos ==
self.next_ref[page_num]` is false, so nothing happens. -/
def updateOptNextRef (s : SimState) (p : Nat) (pos : Nat) : SimState :=
  match lookupA s.nextRef p with
  | some (some v) =>
      if pos = v then
        match lookupA s.optFutureRefs p with
        | some (x :: xs) =>
            { s with nextRef := insertA s.nextRef p (some x)
                     optFutureRefs := insertA s.optFutureRefs p xs }
        | _ => { s with nextRef := insertA s.nextRef p none }
      else s
  | _ => s

/-! ### `_select_victim_frame` -/

/-- The OPT victim scan (`for page in self.page_table: ...` inside
`_select_victim_frame`).  `nr` is `self.next_ref`, `pt` is
`self.page_table` (used for the final `self.page_table[victim_page]`
lookups), `entries` the remaining iteration, `victim`/`farthest` the
loop accumulators (`victim_page = None`, `farthest_next_use = -1`). -/
def optScan (nr : List (Nat × Option Nat)) (pt : List (Nat × Nat)) :
    List (Nat × Nat) → Option Nat → Int → Option Nat
  | [], victim, _ =>
      match victim with
      | some vp => lookupA pt vp
      | none => some 0
  | (page, _) :: rest, victim, farthest =>
      match (lookupA nr page).getD none with
      | none => lookupA pt page
      | some v =>
          if (v : Int) > farthest then optScan nr pt rest (some page) (v : Int)
          else optScan nr pt rest victim farthest

/-- `_select_victim_frame(current_pos)`.  Returns the chosen frame and
the state (FIFO pops its queue, LRU pops its ordered dict).  `none`
models the Python runtime errors (pop from an empty deque / empty
OrderedDict, KeyError on `page_table[victim_page]`).  For a policy name
outside {fifo, lru, opt} the Python code falls through and returns `0`. -/
def selectVictimFrame (s : SimState) : Option (Nat × SimState) :=
  if s.policy = "fifo" then
    match s.fifoQueue with
    | [] => none
    | vp :: rest =>
        match lookupA s.pageTable vp with
        | none => none
        | some f => some (f, { s with fifoQueue := rest })
  else if s.policy = "lru" then
    match s.lruCache with
    | [] => none
    | (vp, _) :: rest =>
        match lookupA s.pageTable vp with
        | none => none
        | some f => some (f, { s with lruCache := rest })
  else if s.policy = "opt" then
    match optScan s.nextRef s.pageTable s.pageTable none (-1) with
    | none => none
    | some f => some (f, s)
  else
    some (0, s)

/-! ### `_handle_page_fault` -/

/-- `x in s` for the Python set `dirty_pages` followed by `s.add(x)`. -/
def addIfAbsent (l : List Nat) (x : Nat) : List Nat :=
  if x ∈ l then l else l ++ [x]

/-- Common tail of `_handle_page_fault`, one field per Python statement:
install the faulting page into the chosen frame (`page_table[page] =
frame; frame_table[frame] = {'page_num': page, 'dirty': op == 'W'}`),
extend the dirty set on a write, and append to the FIFO queue / insert
into the LRU cache according to the policy.  Also appends to the ghost
`loadLog` and records the ghost load position of the frame. -/
def installPage (s : SimState) (p : Nat) (op : String) (pos frameNum : Nat) :
    SimState :=
  { s with
    pageTable := insertA s.pageTable p frameNum
    frameTable := insertA s.frameTable frameNum (p, decide (op = "W"))
    frameLoadPos := insertA s.frameLoadPos frameNum pos
    loadLog := s.loadLog ++ [p]
    dirtyPages := if op = "W" then addIfAbsent s.dirtyPages p else s.dirtyPages
    fifoQueue := if s.policy = "fifo" then s.fifoQueue ++ [p] else s.fifoQueue
    lruCache := if s.policy = "fifo" then s.lruCache
                else if s.policy = "lru" then insertA s.lruCache p frameNum
                else s.lruCache }

/-- Victim clean-up in `_handle_page_fault`: delete the victim from the
page table and the dirty set, and (for LRU) from the LRU cache.  Also
appends the ghost eviction record `(victim, load position of its frame,
current position, dirty flag)`. -/
def evictVictim (s : SimState) (frameNum vp : Nat) (d : Bool) (pos : Nat) :
    SimState :=
  { s with
    pageTable := eraseA s.pageTable vp
    dirtyPages := s.dirtyPages.erase vp
    lruCache := if s.policy = "lru" then eraseA s.lruCache vp else s.lruCache
    evictRecords := s.evictRecords ++
      [(vp, (lookupA s.frameLoadPos frameNum).getD 0, pos, d)] }

/-- `_handle_page_fault(page_num, operation, current_pos)`.  On a
replacement, the eviction counter is bumped first, then the policy picks
a victim frame, a dirty victim is flushed (disk-write counter), the
victim is torn down and the new page installed.  The guards on
`frame_table[frame_num]` and `del page_table[victim_page]` model the
KeyErrors the Python code would raise if those keys were absent. -/
def handlePageFault (s : SimState) (p : Nat) (op : String) (pos : Nat) :
    Option SimState :=
  if (s.pageTable.length : Int) < s.frameCount then
    some (installPage s p op pos s.pageTable.length)
  else
    match selectVictimFrame { s with replacements := s.replacements + 1 } with
    | none => none
    | some (frameNum, s1) =>
        match lookupA s1.frameTable frameNum with
        | none => none
        | some (vp, d) =>
            match lookupA s1.pageTable vp with
            | none => none
            | some _ =>
                some (installPage
                  (evictVictim
                    (if d then { s1 with diskWrites := s1.diskWrites + 1 }
                     else s1)
                    frameNum vp d pos) p op pos frameNum)

/-! ### `simulate` -/

/-- `self.operation_stats[operation] += 1`: the dict has exactly the
keys `'R'` and `'W'`, so any other operation raises KeyError. -/
def opStatUpdate (s : SimState) (op : String) : Option SimState :=
  if op = "R" then some { s with opReads := s.opReads + 1 }
  else if op = "W" then some { s with opWrites := s.opWrites + 1 }
  else none

/-- `OrderedDict.move_to_end(k)`; KeyError when the key is absent. -/
def moveToEnd (l : List (Nat × Nat)) (k : Nat) : Option (List (Nat × Nat)) :=
  match lookupA l k with
  | none => none
  | some v => some (eraseA l k ++ [(k, v)])

/-- Step 2 of the per-reference processing: `if self.replacement_policy
== 'opt': self._update_opt_next_ref(page_num, current_pos)`. -/
def touchOpt (s : SimState) (p pos : Nat) : SimState :=
  if s.policy = "opt" then updateOptNextRef s p pos else s

/-- The hit branch of the `simulate` loop body: count the hit, LRU-touch
the page, and on a write set the frame's dirty flag and extend the dirty
set.  The `moveToEnd` guard models the KeyError an absent key would
raise; likewise the `frame_table[frame_num]` lookup on a write. -/
def hitUpdate (s : SimState) (p : Nat) (op : String) (frameNum : Nat) :
    Option SimState :=
  match (if s.policy = "lru" then moveToEnd s.lruCache p else some s.lruCache) with
  | none => none
  | some cache =>
      if op = "W" then
        match lookupA s.frameTable frameNum with
        | none => none
        | some (q, _) =>
            some { s with
              hits := s.hits + 1
              lruCache := cache
              frameTable := insertA s.frameTable frameNum (q, true)
              dirtyPages := addIfAbsent s.dirtyPages p }
      else some { s with hits := s.hits + 1, lruCache := cache }

/-- One iteration of the `simulate` loop at position `pos` processing
reference `r`. -/
def step (s : SimState) (pos : Nat) (r : Ref) : Option SimState :=
  let p := r.1
  let op := r.2
  let s := { s with totalAccesses := s.totalAccesses + 1 }
  match opStatUpdate s op with
  | none => none
  | some s =>
      let s := touchOpt s p pos
      match lookupA s.pageTable p with
      | some frameNum => hitUpdate s p op frameNum
      | none =>
          handlePageFault { s with pageFaults := s.pageFaults + 1 } p op pos

/-- The `for current_pos, (page_num, operation) in enumerate(references)`
loop, starting at position `pos`. -/
def runSteps (s : SimState) (pos : Nat) : List Ref → Option SimState
  | [] => some s
  | r :: rest =>
      match step s pos r with
      | none => none
      | some s1 => runSteps s1 (pos + 1) rest

/-- `simulate(references)`. -/
def simulate (s : SimState) (refs : List Ref) : Option SimState :=
  runSteps s 0 refs

/-- The engine state right before `simulate` is entered: the constructor
followed by the OPT preprocessing that `load_trace_file` performs when
the policy is `opt`. -/
def engineInit (frameCount : Int) (policy : String) (refs : List Ref) :
    SimState :=
  let s := mkSimulator frameCount policy
  if s.policy = "opt" then preprocessOpt s refs else s

/-- A full engine run on an already-parsed reference sequence, as
performed by `run_simulations`: construct, preprocess (OPT), simulate. -/
def runEngine (frameCount : Int) (policy : String) (refs : List Ref) :
    Option SimState :=
  simulate (engineInit frameCount policy refs) refs

/-! ### Trace parsing (`load_trace_file`) -/

/-- Value of one hexadecimal digit. -/
def hexVal (c : Char) : Option Nat :=
  if '0' ≤ c ∧ c ≤ '9' then some (c.toNat - '0'.toNat)
  else if 'a' ≤ c ∧ c ≤ 'f' then some (c.toNat - 'a'.toNat + 10)
  else if 'A' ≤ c ∧ c ≤ 'F' then some (c.toNat - 'A'.toNat + 10)
  else none

def parseHexCore : List Char → Nat → Option Nat
  | [], acc => some acc
  | c :: rest, acc =>
      match hexVal c with
      | none => none
      | some v => parseHexCore rest (acc * 16 + v)

/-- `int(s, 16)` on the address token (non-negative forms: an optional
`0x`/`0X` prefix followed by hex digits). -/
def parseHex (str : List Char) : Option Nat :=
  let cs := if str.take 2 = ['0', 'x'] ∨ str.take 2 = ['0', 'X'] then str.drop 2
            else str
  match cs with
  | [] => none
  | _ => parseHexCore cs 0

/-- Python `str.split()` on whitespace, dropping empty tokens.  The
second argument accumulates the current token in reverse. -/
def splitWS : List Char → List Char → List (List Char)
  | [], [] => []
  | [], cur => [cur.reverse]
  | c :: rest, cur =>
      if c = ' ' ∨ c = '\t' ∨ c = '\n' ∨ c = '\r' then
        if cur = [] then splitWS rest [] else cur.reverse :: splitWS rest []
      else splitWS rest (c :: cur)

/-- Parsing of one trace line in `load_trace_file`: exactly two tokens,
the first a hexadecimal address; page number = address >> 12.  The
operation token is taken verbatim, without validation.  Any other line
is silently skipped (`none`). -/
def parseTraceLine (line : List Char) : Option Ref :=
  match splitWS line [] with
  | [a, o] =>
      match parseHex a with
      | some addr => some (addr / 2 ^ 12, String.mk o)
      | none => none
  | _ => none

/-- The reference list produced by `load_trace_file` from the trace
lines (the frequency-statistics side effect is not needed by any
property and is omitted). -/
def loadTrace (lines : List (List Char)) : List Ref :=
  lines.filterMap parseTraceLine

/-! ### `get_stats` -/

/-- The numeric content of the statistics dict built by `get_stats`
(wall-clock `execution_time`, the trace-file name and the `top_pages`
table — which is filled by `load_trace_file`, not by the engine — are
not modelled). -/
structure RunStats where
  total_accesses : Nat
  hits : Nat
  page_faults : Nat
  replacements : Nat
  disk_writes : Nat
  hit_rate : ℚ
  fault_rate : ℚ
  eat : ℚ
  reads : Nat
  writes : Nat
  frames : Int
  policy : String

/-- `get_stats()`.  When `total_accesses == 0` the Python code returns
the empty dict `{}` before any rate is computed — modelled as `none`
(a defined empty result, not an error). -/
def getStats (s : SimState) : Option RunStats :=
  if s.totalAccesses = 0 then none
  else
    let hitRate : ℚ := (s.hits : ℚ) / (s.totalAccesses : ℚ) * 100
    let faultRate : ℚ := (s.pageFaults : ℚ) / (s.totalAccesses : ℚ) * 100
    some
      { total_accesses := s.totalAccesses
        hits := s.hits
        page_faults := s.pageFaults
        replacements := s.replacements
        disk_writes := s.diskWrites
        hit_rate := hitRate
        fault_rate := faultRate
        eat := 100 + faultRate / 100 * 10000000
        reads := s.opReads
        writes := s.opWrites
        frames := s.frameCount
        policy := pyUpper s.policy }

/-! ### Derived notions used by the correctness statements -/

/-- The value `self.next_ref.get(page, None)` seen by the OPT scan. -/
def nuV (nr : List (Nat × Option Nat)) (p : Nat) : Option Nat :=
  (lookupA nr p).getD none

/-- `writtenInB refs p i e = true` iff some reference strictly before
position `e` and at position ≥ `i` writes page `p`.  This is "page `p`
was written since it was loaded at position `i`" for a page resident
from `i` to `e`. -/
def writtenInB (refs : List Ref) (p i e : Nat) : Bool :=
  (List.range e).any fun j =>
    decide (i ≤ j) && decide (refs.get? j = some (p, "W"))

/-- The two directory mappings are mutual inverses on resident pages:
keys are unique on both sides, every page-table entry `page ↦ frame` has
the matching frame-table entry `frame ↦ (page, _)`, and conversely. -/
def MutualInverses (s : SimState) : Prop :=
  (s.pageTable.map Prod.fst).Nodup ∧
  (s.frameTable.map Prod.fst).Nodup ∧
  (∀ p f, lookupA s.pageTable p = some f →
    ∃ d, lookupA s.frameTable f = some (p, d)) ∧
  (∀ f p d, lookupA s.frameTable f = some (p, d) →
    lookupA s.pageTable p = some f)

/-- The Belady reference string from the specification's end-to-end
scenario: pages 1,2,3,4,1,2,5,1,2,3,4,5, all reads. -/
def beladyRefs : List Ref :=
  [(1, "R"), (2, "R"), (3, "R"), (4, "R"), (1, "R"), (2, "R"),
   (5, "R"), (1, "R"), (2, "R"), (3, "R"), (4, "R"), (5, "R")]

/-- The table/directory part of the run invariant of the simulation
loop, stable under pure counter updates: directory consistency, the
FIFO queue/ghost-log relation, the disk-write/eviction-record relation,
and the dirty-flag semantics, for the state after the first `k`
references of `refs` have been processed. -/
structure TInv (refs : List Ref) (k : Nat) (s : SimState) : Prop where
  ptNodup : (s.pageTable.map Prod.fst).Nodup
  ftNodup : (s.frameTable.map Prod.fst).Nodup
  ptft : ∀ p f, lookupA s.pageTable p = some f →
    ∃ d, lookupA s.frameTable f = some (p, d)
  ftpt : ∀ f p d, lookupA s.frameTable f = some (p, d) →
    lookupA s.pageTable p = some f
  valBound : ∀ e ∈ s.pageTable, e.2 < s.pageTable.length
  cap : (s.pageTable.length : Int) ≤ s.frameCount ∨ s.pageTable = []
  fifoQ : s.policy = "fifo" → s.fifoQueue = s.pageTable.map Prod.fst
  fifoLog : s.policy = "fifo" →
    s.loadLog = (s.evictRecords.map fun r => r.1) ++ s.fifoQueue
  dwCount : s.diskWrites = (s.evictRecords.filter fun r => r.2.2.2).length
  recW : ∀ r ∈ s.evictRecords, r.2.2.2 = writtenInB refs r.1 r.2.1 r.2.2.1
  dirtySem : ∀ f p d, lookupA s.frameTable f = some (p, d) →
    ∃ i, lookupA s.frameLoadPos f = some i ∧ i < k ∧
      d = writtenInB refs p i k

/-- The full run invariant: counter identities plus the table part. -/
def Inv (refs : List Ref) (k : Nat) (s : SimState) : Prop :=
  s.hits + s.pageFaults = s.totalAccesses ∧
  s.replacements ≤ s.pageFaults ∧
  TInv refs k s

/-! ## Association-list lemmas -/

theorem lookupA_nil {α : Type} (k : Nat) : lookupA ([] : List (Nat × α)) k = none := rfl

theorem lookupA_cons {α : Type} (a : Nat) (v : α) (l : List (Nat × α)) (k : Nat) :
    lookupA ((a, v) :: l) k = if a = k then some v else lookupA l k := rfl

theorem mem_of_lookupA {α : Type} {l : List (Nat × α)} {k : Nat} {v : α}
    (h : lookupA l k = some v) : (k, v) ∈ l := by
  induction l with
  | nil => simp [lookupA] at h
  | cons e rest ih =>
      obtain ⟨a, w⟩ := e
      rw [lookupA_cons] at h
      by_cases ha : a = k
      · rw [if_pos ha] at h
        injection h with h
        subst ha; subst h
        exact List.mem_cons_self _ _
      · rw [if_neg ha] at h
        exact List.mem_cons_of_mem _ (ih h)

theorem lookupA_eq_none {α : Type} {l : List (Nat × α)} {k : Nat} :
    lookupA l k = none ↔ k ∉ l.map Prod.fst := by
  induction l with
  | nil => simp [lookupA]
  | cons e rest ih =>
      obtain ⟨a, w⟩ := e
      rw [lookupA_cons, List.map_cons]
      by_cases ha : a = k
      · subst ha; simp
      · rw [if_neg ha, ih]
        simp [List.mem_cons, Ne.symm ha]

theorem lookupA_isSome_of_mem {α : Type} {l : List (Nat × α)} {k : Nat}
    (h : k ∈ l.map Prod.fst) : ∃ v, lookupA l k = some v := by
  rcases hv : lookupA l k with _ | v
  · exact absurd (lookupA_eq_none.mp hv) (by simpa using h)
  · exact ⟨v, rfl⟩

theorem lookupA_insertA_self {α : Type} (l : List (Nat × α)) (k : Nat) (v : α) :
    lookupA (insertA l k v) k = some v := by
  induction l with
  | nil => simp [insertA, lookupA_cons]
  | cons e rest ih =>
      obtain ⟨a, w⟩ := e
      by_cases ha : a = k
      · simp [insertA, ha, lookupA_cons]
      · simp [insertA, ha, lookupA_cons, ih]

theorem lookupA_insertA_ne {α : Type} (l : List (Nat × α)) (k : Nat) (v : α)
    {j : Nat} (h : j ≠ k) : lookupA (insertA l k v) j = lookupA l j := by
  induction l with
  | nil => simp [insertA, lookupA_cons, lookupA_nil, Ne.symm h]
  | cons e rest ih =>
      obtain ⟨a, w⟩ := e
      by_cases ha : a = k
      · subst ha
        rw [insertA, if_pos rfl, lookupA_cons, lookupA_cons,
          if_neg (Ne.symm h), if_neg (Ne.symm h)]
      · rw [insertA, if_neg ha, lookupA_cons, lookupA_cons, ih]

theorem insertA_of_not_mem {α : Type} {l : List (Nat × α)} {k : Nat} (v : α)
    (h : k ∉ l.map Prod.fst) : insertA l k v = l ++ [(k, v)] := by
  induction l with
  | nil => simp [insertA]
  | cons e rest ih =>
      obtain ⟨a, w⟩ := e
      rw [List.map_cons] at h
      have hak : ¬ a = k := fun e => h (by simp [e])
      have hrest : k ∉ rest.map Prod.fst := fun m => h (List.mem_cons_of_mem _ m)
      rw [insertA, if_neg hak, ih hrest, List.cons_append]

theorem map_fst_insertA_of_mem {α : Type} {l : List (Nat × α)} {k : Nat} (v : α)
    (h : k ∈ l.map Prod.fst) : (insertA l k v).map Prod.fst = l.map Prod.fst := by
  induction l with
  | nil => simp at h
  | cons e rest ih =>
      obtain ⟨a, w⟩ := e
      by_cases ha : a = k
      · rw [insertA, if_pos ha]; simp
      · rw [List.map_cons] at h
        rcases List.mem_cons.mp h with h | h
        · exact absurd h.symm ha
        · rw [insertA, if_neg ha, List.map_cons, List.map_cons, ih h]

theorem nodup_insertA {α : Type} {l : List (Nat × α)} {k : Nat} (v : α)
    (h : (l.map Prod.fst).Nodup) : ((insertA l k v).map Prod.fst).Nodup := by
  by_cases hm : k ∈ l.map Prod.fst
  · rw [map_fst_insertA_of_mem v hm]; exact h
  · rw [insertA_of_not_mem v hm, List.map_append]
    refine List.Nodup.append h (by simp) ?_
    intro a ha hak
    rw [List.map_singleton, List.mem_singleton] at hak
    subst hak
    exact hm ha

theorem mem_of_mem_eraseA {α : Type} {l : List (Nat × α)} {k : Nat} {e : Nat × α}
    (h : e ∈ eraseA l k) : e ∈ l := by
  induction l with
  | nil => simp [eraseA] at h
  | cons f rest ih =>
      obtain ⟨a, w⟩ := f
      by_cases ha : a = k
      · rw [eraseA, if_pos ha] at h
        exact List.mem_cons_of_mem _ h
      · rw [eraseA, if_neg ha] at h
        rcases List.mem_cons.mp h with h | h
        · simp [h]
        · exact List.mem_cons_of_mem _ (ih h)

theorem map_fst_eraseA_sublist {α : Type} (l : List (Nat × α)) (k : Nat) :
    ((eraseA l k).map Prod.fst).Sublist (l.map Prod.fst) := by
  induction l with
  | nil => simp [eraseA]
  | cons f rest ih =>
      obtain ⟨a, w⟩ := f
      by_cases ha : a = k
      · rw [eraseA, if_pos ha, List.map_cons]
        exact (List.Sublist.refl _).cons a
      · rw [eraseA, if_neg ha, List.map_cons, List.map_cons]
        exact ih.cons₂ a

theorem nodup_eraseA {α : Type} {l : List (Nat × α)} (k : Nat)
    (h : (l.map Prod.fst).Nodup) : ((eraseA l k).map Prod.fst).Nodup :=
  (map_fst_eraseA_sublist l k).nodup h

theorem lookupA_eraseA_self {α : Type} {l : List (Nat × α)} {k : Nat}
    (h : (l.map Prod.fst).Nodup) : lookupA (eraseA l k) k = none := by
  induction l with
  | nil => simp [eraseA, lookupA]
  | cons f rest ih =>
      obtain ⟨a, w⟩ := f
      rw [List.map_cons, List.nodup_cons] at h
      by_cases ha : a = k
      · rw [eraseA, if_pos ha]
        subst ha
        exact lookupA_eq_none.mpr h.1
      · rw [eraseA, if_neg ha, lookupA_cons, if_neg ha]
        exact ih h.2

theorem lookupA_eraseA_ne {α : Type} {l : List (Nat × α)} {k j : Nat}
    (h : j ≠ k) : lookupA (eraseA l k) j = lookupA l j := by
  induction l with
  | nil => simp [eraseA]
  | cons f rest ih =>
      obtain ⟨a, w⟩ := f
      by_cases ha : a = k
      · subst ha
        rw [eraseA, if_pos rfl, lookupA_cons, if_neg (Ne.symm h)]
      · rw [eraseA, if_neg ha, lookupA_cons, lookupA_cons, ih]

theorem length_eraseA_of_mem {α : Type} {l : List (Nat × α)} {k : Nat} {v : α}
    (h : lookupA l k = some v) : (eraseA l k).length + 1 = l.length := by
  induction l with
  | nil => simp [lookupA] at h
  | cons f rest ih =>
      obtain ⟨a, w⟩ := f
      rw [lookupA_cons] at h
      by_cases ha : a = k
      · rw [eraseA, if_pos ha]; simp
      · rw [if_neg ha] at h
        rw [eraseA, if_neg ha]
        simp [← ih h]

theorem lookupA_append_left {α : Type} {l1 : List (Nat × α)} (l2 : List (Nat × α))
    {k : Nat} {v : α} (h : lookupA l1 k = some v) :
    lookupA (l1 ++ l2) k = some v := by
  induction l1 with
  | nil => simp [lookupA] at h
  | cons f rest ih =>
      obtain ⟨a, w⟩ := f
      rw [lookupA_cons] at h
      by_cases ha : a = k
      · rw [if_pos ha] at h
        rw [List.cons_append, lookupA_cons, if_pos ha]
        exact h
      · rw [if_neg ha] at h
        rw [List.cons_append, lookupA_cons, if_neg ha]
        exact ih h

theorem lookupA_append_right {α : Type} {l1 : List (Nat × α)} (l2 : List (Nat × α))
    {k : Nat} (h : lookupA l1 k = none) :
    lookupA (l1 ++ l2) k = lookupA l2 k := by
  induction l1 with
  | nil => simp
  | cons f rest ih =>
      obtain ⟨a, w⟩ := f
      rw [lookupA_cons] at h
      by_cases ha : a = k
      · rw [if_pos ha] at h; exact absurd h (by simp)
      · rw [if_neg ha] at h
        rw [List.cons_append, lookupA_cons, if_neg ha]
        exact ih h

/-! ## Inversion lemmas for the engine operations -/

theorem updateOpt_spec (s : SimState) (p pos : Nat) :
    ∃ a b, updateOptNextRef s p pos =
      { s with nextRef := a, optFutureRefs := b } := by
  unfold updateOptNextRef
  split
  · split
    · split
      · exact ⟨_, _, rfl⟩
      · exact ⟨insertA s.nextRef p none, s.optFutureRefs, rfl⟩
    · exact ⟨s.nextRef, s.optFutureRefs, rfl⟩
  · exact ⟨s.nextRef, s.optFutureRefs, rfl⟩

theorem touchOpt_spec (s : SimState) (p pos : Nat) :
    ∃ a b, touchOpt s p pos = { s with nextRef := a, optFutureRefs := b } := by
  unfold touchOpt
  split
  · exact updateOpt_spec s p pos
  · exact ⟨s.nextRef, s.optFutureRefs, rfl⟩

theorem opStatUpdate_spec {s t : SimState} {op : String}
    (h : opStatUpdate s op = some t) :
    (op = "R" ∧ t = { s with opReads := s.opReads + 1 }) ∨
    (op = "W" ∧ t = { s with opWrites := s.opWrites + 1 }) := by
  unfold opStatUpdate at h
  split_ifs at h with h1 h2
  · injection h with h
    exact Or.inl ⟨h1, h.symm⟩
  · injection h with h
    exact Or.inr ⟨h2, h.symm⟩

theorem hitUpdate_spec {s s' : SimState} {p : Nat} {op : String} {frameNum : Nat}
    (h : hitUpdate s p op frameNum = some s') :
    ∃ cache,
      ((¬ op = "W" ∧ s' = { s with hits := s.hits + 1, lruCache := cache }) ∨
       (op = "W" ∧ ∃ q d0, lookupA s.frameTable frameNum = some (q, d0) ∧
         s' = { s with
           hits := s.hits + 1
           lruCache := cache
           frameTable := insertA s.frameTable frameNum (q, true)
           dirtyPages := addIfAbsent s.dirtyPages p })) := by
  unfold hitUpdate at h
  split at h
  · exact absurd h (by simp)
  · rename_i cache heq
    refine ⟨cache, ?_⟩
    split_ifs at h with hw
    · split at h
      · exact absurd h (by simp)
      · rename_i q d0 hft
        injection h with h
        exact Or.inr ⟨hw, q, d0, hft, h.symm⟩
    · injection h with h
      exact Or.inl ⟨hw, h.symm⟩

theorem selectVictim_spec {s : SimState} {fr : Nat} {s1 : SimState}
    (h : selectVictimFrame s = some (fr, s1)) :
    s1.pageTable = s.pageTable ∧ s1.frameTable = s.frameTable ∧
    s1.frameLoadPos = s.frameLoadPos ∧ s1.evictRecords = s.evictRecords ∧
    s1.loadLog = s.loadLog ∧ s1.diskWrites = s.diskWrites ∧
    s1.hits = s.hits ∧ s1.pageFaults = s.pageFaults ∧
    s1.totalAccesses = s.totalAccesses ∧ s1.replacements = s.replacements ∧
    s1.policy = s.policy ∧ s1.frameCount = s.frameCount ∧
    (s.policy = "fifo" → ∃ vp rest, s.fifoQueue = vp :: rest ∧
      lookupA s.pageTable vp = some fr ∧ s1.fifoQueue = rest) := by
  unfold selectVictimFrame at h
  split_ifs at h with hf hl ho
  · split at h
    · exact absurd h (by simp)
    · rename_i vp rest hq
      split at h
      · exact absurd h (by simp)
      · rename_i f hlk
        injection h with h
        injection h with h1 h2
        subst h1
        subst h2
        exact ⟨rfl, rfl, rfl, rfl, rfl, rfl, rfl, rfl, rfl, rfl, rfl, rfl,
          fun _ => ⟨vp, rest, hq, hlk, rfl⟩⟩
  · split at h
    · exact absurd h (by simp)
    · rename_i vp w rest hq
      split at h
      · exact absurd h (by simp)
      · rename_i f hlk
        injection h with h
        injection h with h1 h2
        subst h1
        subst h2
        exact ⟨rfl, rfl, rfl, rfl, rfl, rfl, rfl, rfl, rfl, rfl, rfl, rfl,
          fun hpf => absurd hpf hf⟩
  · split at h
    · exact absurd h (by simp)
    · rename_i f hscan
      injection h with h
      injection h with h1 h2
      subst h1
      subst h2
      exact ⟨rfl, rfl, rfl, rfl, rfl, rfl, rfl, rfl, rfl, rfl, rfl, rfl,
        fun hpf => absurd hpf hf⟩
  · injection h with h
    injection h with h1 h2
    subst h1
    subst h2
    exact ⟨rfl, rfl, rfl, rfl, rfl, rfl, rfl, rfl, rfl, rfl, rfl, rfl,
      fun hpf => absurd hpf hf⟩

theorem handlePageFault_spec {s : SimState} {p : Nat} {op : String} {pos : Nat}
    {s' : SimState} (h : handlePageFault s p op pos = some s') :
    ((s.pageTable.length : Int) < s.frameCount ∧
      s' = installPage s p op pos s.pageTable.length) ∨
    (¬ (s.pageTable.length : Int) < s.frameCount ∧
      ∃ frameNum s1 vp d,
        selectVictimFrame { s with replacements := s.replacements + 1 } =
          some (frameNum, s1) ∧
        lookupA s1.frameTable frameNum = some (vp, d) ∧
        (∃ w, lookupA s1.pageTable vp = some w) ∧
        s' = installPage
          (evictVictim
            (if d then { s1 with diskWrites := s1.diskWrites + 1 } else s1)
            frameNum vp d pos) p op pos frameNum) := by
  unfold handlePageFault at h
  split_ifs at h with hlt
  · injection h with h
    exact Or.inl ⟨hlt, h.symm⟩
  · refine Or.inr ⟨hlt, ?_⟩
    split at h
    · exact absurd h (by simp)
    · rename_i frameNum s1 hsel
      split at h
      · exact absurd h (by simp)
      · rename_i vp d hft
        split at h
        · exact absurd h (by simp)
        · rename_i w hpt
          injection h with h
          exact ⟨frameNum, s1, vp, d, hsel, hft, ⟨w, hpt⟩, h.symm⟩

/-! ## Lemmas about the written-since-load predicate -/

theorem writtenInB_succ (refs : List Ref) (p i k : Nat) :
    writtenInB refs p i (k + 1) =
      (writtenInB refs p i k ||
        (decide (i ≤ k) && decide (refs.get? k = some (p, "W")))) := by
  unfold writtenInB
  rw [List.range_succ, List.any_append]
  simp

theorem writtenInB_of_le {refs : List Ref} {p i e : Nat} (h : e ≤ i) :
    writtenInB refs p i e = false := by
  unfold writtenInB
  simp only [List.any_eq_false, List.mem_range, Bool.and_eq_true,
    decide_eq_true_eq, not_and]
  intro j hj hij
  omega

theorem writtenInB_window_start (refs : List Ref) (p k : Nat) :
    writtenInB refs p k (k + 1) = decide (refs.get? k = some (p, "W")) := by
  rw [writtenInB_succ, writtenInB_of_le (le_refl k)]
  simp

theorem writtenInB_succ_other {refs : List Ref} {p i k q : Nat} {op : String}
    (href : refs.get? k = some (q, op)) (hne : ¬ (q = p ∧ op = "W")) :
    writtenInB refs p i (k + 1) = writtenInB refs p i k := by
  rw [writtenInB_succ, href]
  have hpair : ((some (q, op) : Option Ref) = some (p, "W")) = False := by
    simp only [Option.some_inj, Prod.mk.injEq, eq_iff_iff, iff_false]
    exact hne
  simp [hpair]

/-! ## Preservation of the table invariant -/

theorem tinv_congr {refs : List Ref} {k : Nat} {s t : SimState}
    (h : TInv refs k s)
    (hpt : t.pageTable = s.pageTable) (hft : t.frameTable = s.frameTable)
    (hflp : t.frameLoadPos = s.frameLoadPos)
    (her : t.evictRecords = s.evictRecords) (hll : t.loadLog = s.loadLog)
    (hdw : t.diskWrites = s.diskWrites) (hq : t.fifoQueue = s.fifoQueue)
    (hpol : t.policy = s.policy) (hfc : t.frameCount = s.frameCount) :
    TInv refs k t := by
  constructor
  · rw [hpt]; exact h.ptNodup
  · rw [hft]; exact h.ftNodup
  · rw [hpt, hft]; exact h.ptft
  · rw [hft, hpt]; exact h.ftpt
  · rw [hpt]; exact h.valBound
  · rw [hpt, hfc]; exact h.cap
  · rw [hpol, hq, hpt]; exact h.fifoQ
  · rw [hpol, hll, her, hq]; exact h.fifoLog
  · rw [hdw, her]; exact h.dwCount
  · rw [her]; exact h.recW
  · rw [hft, hflp]; exact h.dirtySem

theorem tinv_hit_read {refs : List Ref} {k : Nat} {u : SimState} {p : Nat}
    {op : String} {cache : List (Nat × Nat)}
    (h : TInv refs k u) (href : refs.get? k = some (p, op)) (hnw : ¬ op = "W") :
    TInv refs (k + 1) { u with hits := u.hits + 1, lruCache := cache } := by
  refine ⟨h.ptNodup, h.ftNodup, h.ptft, h.ftpt, h.valBound, h.cap, h.fifoQ,
    h.fifoLog, h.dwCount, h.recW, ?_⟩
  intro f q d hlk
  obtain ⟨i, hflp, hik, hd⟩ := h.dirtySem f q d hlk
  have hne : ¬ (p = q ∧ op = "W") := fun hh => hnw hh.2
  refine ⟨i, hflp, by omega, ?_⟩
  rw [writtenInB_succ_other href hne]
  exact hd

theorem tinv_hit_write {refs : List Ref} {k : Nat} {u : SimState} {p : Nat}
    {frameNum : Nat} {cache : List (Nat × Nat)} {d0 : Bool}
    (h : TInv refs k u) (href : refs.get? k = some (p, "W"))
    (hpt : lookupA u.pageTable p = some frameNum)
    (hft : lookupA u.frameTable frameNum = some (p, d0)) :
    TInv refs (k + 1) { u with
      hits := u.hits + 1
      lruCache := cache
      frameTable := insertA u.frameTable frameNum (p, true)
      dirtyPages := addIfAbsent u.dirtyPages p } := by
  refine ⟨h.ptNodup, nodup_insertA _ h.ftNodup, ?_, ?_, h.valBound, h.cap,
    h.fifoQ, h.fifoLog, h.dwCount, h.recW, ?_⟩
  · intro p2 f2 hp2
    by_cases hf2 : f2 = frameNum
    · subst hf2
      obtain ⟨d2, hd2⟩ := h.ptft p2 f2 hp2
      have hp2p : p2 = p := by
        have hh := hd2.symm.trans hft
        simp only [Option.some_inj, Prod.mk.injEq] at hh
        exact hh.1
      subst hp2p
      exact ⟨true, by rw [lookupA_insertA_self]⟩
    · rw [lookupA_insertA_ne _ _ _ hf2]
      exact h.ptft p2 f2 hp2
  · intro f2 p2 d2 h2
    by_cases hf2 : f2 = frameNum
    · subst hf2
      rw [lookupA_insertA_self] at h2
      injection h2 with h2
      injection h2 with h1 _
      exact h1 ▸ hpt
    · rw [lookupA_insertA_ne _ _ _ hf2] at h2
      exact h.ftpt f2 p2 d2 h2
  · intro f2 p2 d2 h2
    by_cases hf2 : f2 = frameNum
    · subst hf2
      rw [lookupA_insertA_self] at h2
      injection h2 with h2
      injection h2 with h1 h2v
      obtain ⟨i, hflp, hik, _⟩ := h.dirtySem f2 p d0 hft
      refine ⟨i, hflp, by omega, ?_⟩
      rw [← h2v, ← h1, writtenInB_succ, href]
      simp [Nat.le_of_lt hik]
    · rw [lookupA_insertA_ne _ _ _ hf2] at h2
      obtain ⟨i, hflp, hik, hd⟩ := h.dirtySem f2 p2 d2 h2
      have hp2 : ¬ p = p2 := by
        intro he
        have hcontra := h.ftpt f2 p2 d2 h2
        rw [← he, hpt] at hcontra
        injection hcontra with hcontra
        exact hf2 hcontra.symm
      refine ⟨i, hflp, by omega, ?_⟩
      rw [writtenInB_succ_other href (fun hh => hp2 hh.1)]
      exact hd

theorem tinv_install_free {refs : List Ref} {k : Nat} {u : SimState} {p : Nat}
    {op : String}
    (h : TInv refs k u) (href : refs.get? k = some (p, op))
    (hnone : lookupA u.pageTable p = none)
    (hlen : (u.pageTable.length : Int) < u.frameCount) :
    TInv refs (k + 1) (installPage u p op k u.pageTable.length) := by
  have hpk : p ∉ u.pageTable.map Prod.fst := lookupA_eq_none.mp hnone
  have hpt_eq : insertA u.pageTable p u.pageTable.length =
      u.pageTable ++ [(p, u.pageTable.length)] := insertA_of_not_mem _ hpk
  have hftnone : lookupA u.frameTable u.pageTable.length = none := by
    rcases hv : lookupA u.frameTable u.pageTable.length with _ | pd
    · rfl
    · obtain ⟨q, dq⟩ := pd
      have hq := h.ftpt _ q dq hv
      have hb := h.valBound _ (mem_of_lookupA hq)
      exact absurd hb (by simp)
  unfold installPage
  constructor
  · exact nodup_insertA _ h.ptNodup
  · exact nodup_insertA _ h.ftNodup
  · intro p2 f2 hp2
    simp only at hp2 ⊢
    by_cases hp2p : p2 = p
    · subst hp2p
      rw [lookupA_insertA_self] at hp2
      injection hp2 with hp2
      subst hp2
      exact ⟨decide (op = "W"), by rw [lookupA_insertA_self]⟩
    · rw [lookupA_insertA_ne _ _ _ hp2p] at hp2
      obtain ⟨d2, hd2⟩ := h.ptft p2 f2 hp2
      have hf2 : ¬ f2 = u.pageTable.length := by
        have hb := h.valBound _ (mem_of_lookupA hp2)
        simp only at hb
        omega
      rw [lookupA_insertA_ne _ _ _ hf2]
      exact ⟨d2, hd2⟩
  · intro f2 p2 d2 h2
    simp only at h2 ⊢
    by_cases hf2 : f2 = u.pageTable.length
    · subst hf2
      rw [lookupA_insertA_self] at h2
      injection h2 with h2
      have hp2 : p2 = p ∧ d2 = decide (op = "W") := by
        have := h2.symm
        simp only [Prod.mk.injEq] at this
        exact this
      rw [hp2.1, lookupA_insertA_self]
    · rw [lookupA_insertA_ne _ _ _ hf2] at h2
      have hp2 := h.ftpt f2 p2 d2 h2
      have hp2p : ¬ p2 = p := by
        intro he
        rw [he, hnone] at hp2
        exact absurd hp2 (by simp)
      rw [lookupA_insertA_ne _ _ _ hp2p]
      exact hp2
  · intro e he
    simp only at he ⊢
    rw [hpt_eq] at he ⊢
    rw [List.length_append]
    rcases List.mem_append.mp he with he | he
    · have := h.valBound e he
      simp only [List.length_singleton]
      omega
    · simp only [List.mem_singleton] at he
      subst he
      simp
  · simp only
    rw [hpt_eq, List.length_append]
    left
    simp only [List.length_singleton]
    push_cast
    omega
  · intro hpol
    simp only at hpol ⊢
    rw [if_pos hpol, hpt_eq, List.map_append, h.fifoQ hpol]
    simp
  · intro hpol
    simp only at hpol ⊢
    rw [if_pos hpol, h.fifoLog hpol, List.append_assoc]
  · exact h.dwCount
  · exact h.recW
  · intro f2 p2 d2 h2
    simp only at h2 ⊢
    by_cases hf2 : f2 = u.pageTable.length
    · subst hf2
      rw [lookupA_insertA_self] at h2
      injection h2 with h2
      have hp2 : p2 = p ∧ d2 = decide (op = "W") := by
        have := h2.symm
        simp only [Prod.mk.injEq] at this
        exact this
      obtain ⟨he1, he2⟩ := hp2
      subst he1
      subst he2
      refine ⟨k, by rw [lookupA_insertA_self], by omega, ?_⟩
      rw [writtenInB_window_start, href]
      simp
    · rw [lookupA_insertA_ne _ _ _ hf2] at h2
      obtain ⟨i, hflp, hik, hd⟩ := h.dirtySem f2 p2 d2 h2
      have hp2p : ¬ p = p2 := by
        intro he
        have hc := h.ftpt f2 p2 d2 h2
        rw [← he, hnone] at hc
        exact absurd hc (by simp)
      refine ⟨i, by rw [lookupA_insertA_ne _ _ _ hf2]; exact hflp, by omega, ?_⟩
      rw [writtenInB_succ_other href (fun hh => hp2p hh.1)]
      exact hd

theorem tinv_replace {refs : List Ref} {k : Nat} {v w : SimState} {p : Nat}
    {op : String} {frameNum : Nat} {s1 : SimState} {vp : Nat} {d : Bool}
    (h : TInv refs k v) (href : refs.get? k = some (p, op))
    (hnone : lookupA v.pageTable p = none)
    (hsel : selectVictimFrame w = some (frameNum, s1))
    (hwPT : w.pageTable = v.pageTable) (hwFT : w.frameTable = v.frameTable)
    (hwFLP : w.frameLoadPos = v.frameLoadPos)
    (hwER : w.evictRecords = v.evictRecords) (hwLL : w.loadLog = v.loadLog)
    (hwDW : w.diskWrites = v.diskWrites) (hwQ : w.fifoQueue = v.fifoQueue)
    (hwPol : w.policy = v.policy) (hwFC : w.frameCount = v.frameCount)
    (hft0 : lookupA s1.frameTable frameNum = some (vp, d)) :
    TInv refs (k + 1)
      (installPage
        (evictVictim
          (if d then { s1 with diskWrites := s1.diskWrites + 1 } else s1)
          frameNum vp d k) p op k frameNum) := by
  obtain ⟨hPT0, hFT0, hFLP0, hER0, hLL0, hDW0, hHits0, hPF0, hTA0, hRepl0,
    hPol0, hFC0, hFifo0⟩ := selectVictim_spec hsel
  have hPT : s1.pageTable = v.pageTable := hPT0.trans hwPT
  have hFT : s1.frameTable = v.frameTable := hFT0.trans hwFT
  have hFLP : s1.frameLoadPos = v.frameLoadPos := hFLP0.trans hwFLP
  have hER : s1.evictRecords = v.evictRecords := hER0.trans hwER
  have hLL : s1.loadLog = v.loadLog := hLL0.trans hwLL
  have hDW : s1.diskWrites = v.diskWrites := hDW0.trans hwDW
  have hPol : s1.policy = v.policy := hPol0.trans hwPol
  have hFC : s1.frameCount = v.frameCount := hFC0.trans hwFC
  have hFifo : v.policy = "fifo" → ∃ vq rest, v.fifoQueue = vq :: rest ∧
      lookupA v.pageTable vq = some frameNum ∧ s1.fifoQueue = rest := by
    intro hpol
    obtain ⟨vq, rest, hq, hlkq, hs1q⟩ := hFifo0 (by rw [hwPol]; exact hpol)
    refine ⟨vq, rest, ?_, ?_, hs1q⟩
    · rw [← hwQ]; exact hq
    · rw [← hwPT]; exact hlkq
  -- the chosen state s1 agrees with v on every directory-relevant field
  have hift : ∀ {γ : Type} (f : SimState → γ) (z : γ),
      f { s1 with diskWrites := s1.diskWrites + 1 } = z → f s1 = z →
      f (if d then { s1 with diskWrites := s1.diskWrites + 1 } else s1) = z := by
    intro γ f z h1 h2
    split
    · exact h1
    · exact h2
  have hs2PT :
      (if d then { s1 with diskWrites := s1.diskWrites + 1 } else s1).pageTable
        = v.pageTable := hift (fun t => t.pageTable) _ hPT hPT
  have hs2FT :
      (if d then { s1 with diskWrites := s1.diskWrites + 1 } else s1).frameTable
        = v.frameTable := hift (fun t => t.frameTable) _ hFT hFT
  have hs2FLP :
      (if d then { s1 with diskWrites := s1.diskWrites + 1 } else s1).frameLoadPos
        = v.frameLoadPos := hift (fun t => t.frameLoadPos) _ hFLP hFLP
  have hs2ER :
      (if d then { s1 with diskWrites := s1.diskWrites + 1 } else s1).evictRecords
        = v.evictRecords := hift (fun t => t.evictRecords) _ hER hER
  have hs2LL :
      (if d then { s1 with diskWrites := s1.diskWrites + 1 } else s1).loadLog
        = v.loadLog := hift (fun t => t.loadLog) _ hLL hLL
  have hs2Q :
      (if d then { s1 with diskWrites := s1.diskWrites + 1 } else s1).fifoQueue
        = s1.fifoQueue := hift (fun t => t.fifoQueue) _ rfl rfl
  have hs2Pol :
      (if d then { s1 with diskWrites := s1.diskWrites + 1 } else s1).policy
        = v.policy := hift (fun t => t.policy) _ hPol hPol
  have hs2FC :
      (if d then { s1 with diskWrites := s1.diskWrites + 1 } else s1).frameCount
        = v.frameCount := hift (fun t => t.frameCount) _ hFC hFC
  have hs2DW :
      (if d then { s1 with diskWrites := s1.diskWrites + 1 } else s1).diskWrites
        = if d then v.diskWrites + 1 else v.diskWrites := by
    split_ifs with hd
    · rw [hDW]
    · exact hDW
  rw [hFT] at hft0
  have hvp_pt : lookupA v.pageTable vp = some frameNum :=
    h.ftpt frameNum vp d hft0
  have hp_ne_vp : ¬ p = vp := by
    intro he
    rw [← he, hnone] at hvp_pt
    exact absurd hvp_pt (by simp)
  have hE_pt_none : lookupA (eraseA v.pageTable vp) p = none := by
    rw [lookupA_eraseA_ne hp_ne_vp]
    exact hnone
  have hinsE : insertA (eraseA v.pageTable vp) p frameNum =
      eraseA v.pageTable vp ++ [(p, frameNum)] :=
    insertA_of_not_mem _ (lookupA_eq_none.mp hE_pt_none)
  have hlenE : (eraseA v.pageTable vp).length + 1 = v.pageTable.length :=
    length_eraseA_of_mem hvp_pt
  obtain ⟨i0, hflp0, hik0, hd0⟩ := h.dirtySem frameNum vp d hft0
  have hgetD : (lookupA v.frameLoadPos frameNum).getD 0 = i0 := by
    rw [hflp0]
    rfl
  have hftKeys : ((insertA v.frameTable frameNum (p, decide (op = "W"))).map
      Prod.fst).Nodup := nodup_insertA _ h.ftNodup
  unfold installPage evictVictim
  constructor
  case ptNodup =>
    dsimp only
    rw [hs2PT]
    exact nodup_insertA _ (nodup_eraseA _ h.ptNodup)
  case ftNodup =>
    dsimp only
    rw [hs2FT]
    exact hftKeys
  case ptft =>
    dsimp only
    rw [hs2PT, hs2FT]
    intro p2 f2 hp2
    by_cases hp2p : p2 = p
    · subst hp2p
      rw [lookupA_insertA_self] at hp2
      injection hp2 with hp2
      subst hp2
      exact ⟨decide (op = "W"), by rw [lookupA_insertA_self]⟩
    · rw [lookupA_insertA_ne _ _ _ hp2p] at hp2
      have hp2vp : ¬ p2 = vp := by
        intro he
        subst he
        rw [lookupA_eraseA_self h.ptNodup] at hp2
        exact absurd hp2 (by simp)
      rw [lookupA_eraseA_ne hp2vp] at hp2
      obtain ⟨d2, hd2⟩ := h.ptft p2 f2 hp2
      have hf2 : ¬ f2 = frameNum := by
        intro he
        rw [he, hft0] at hd2
        have hvp2 : vp = p2 := by
          simp only [Option.some_inj, Prod.mk.injEq] at hd2
          exact hd2.1
        exact hp2vp hvp2.symm
      rw [lookupA_insertA_ne _ _ _ hf2]
      exact ⟨d2, hd2⟩
  case ftpt =>
    dsimp only
    rw [hs2PT, hs2FT]
    intro f2 p2 d2 h2
    by_cases hf2 : f2 = frameNum
    · subst hf2
      rw [lookupA_insertA_self] at h2
      injection h2 with h2
      have hp2 : p2 = p := by
        have := h2.symm
        simp only [Prod.mk.injEq] at this
        exact this.1
      subst hp2
      rw [lookupA_insertA_self]
    · rw [lookupA_insertA_ne _ _ _ hf2] at h2
      have hpt2 := h.ftpt f2 p2 d2 h2
      have hp2vp : ¬ p2 = vp := by
        intro he
        rw [he, hvp_pt] at hpt2
        simp only [Option.some_inj] at hpt2
        exact hf2 hpt2.symm
      have hp2p : ¬ p2 = p := by
        intro he
        rw [he, hnone] at hpt2
        exact absurd hpt2 (by simp)
      rw [lookupA_insertA_ne _ _ _ hp2p, lookupA_eraseA_ne hp2vp]
      exact hpt2
  case valBound =>
    dsimp only
    rw [hs2PT, hinsE]
    intro e he
    rw [List.length_append, List.length_singleton]
    rcases List.mem_append.mp he with he | he
    · have hb := h.valBound e (mem_of_mem_eraseA he)
      omega
    · rw [List.mem_singleton] at he
      subst he
      have hb := h.valBound _ (mem_of_lookupA hvp_pt)
      simp only at hb ⊢
      omega
  case cap =>
    dsimp only
    rw [hs2PT, hs2FC, hinsE]
    left
    rcases h.cap with hcap | hcap
    · rw [List.length_append, List.length_singleton]
      push_cast
      omega
    · rw [hcap] at hvp_pt
      exact absurd hvp_pt (by simp [lookupA])
  case fifoQ =>
    dsimp only
    rw [hs2PT, hs2Pol, hs2Q]
    intro hpol
    rw [if_pos hpol]
    obtain ⟨vq, rest, hq, hlkq, hs1q⟩ := hFifo hpol
    have hvq : vq = vp := by
      obtain ⟨dq, hdq⟩ := h.ptft vq frameNum hlkq
      have hh := hdq.symm.trans hft0
      simp only [Option.some_inj, Prod.mk.injEq] at hh
      exact hh.1
    have hkeys : v.pageTable.map Prod.fst = vp :: rest := by
      rw [← h.fifoQ hpol, hq, hvq]
    obtain ⟨x, t, hsh, hmt⟩ :
        ∃ x t, v.pageTable = (vp, x) :: t ∧ t.map Prod.fst = rest := by
      rcases hps : v.pageTable with _ | ⟨⟨a, x⟩, t⟩
      · rw [hps] at hkeys
        exact absurd hkeys (by simp)
      · rw [hps, List.map_cons] at hkeys
        simp only [List.cons.injEq] at hkeys
        exact ⟨x, t, by rw [hkeys.1], hkeys.2⟩
    have herase : eraseA v.pageTable vp = t := by
      rw [hsh]
      simp [eraseA]
    rw [hs1q, hinsE, herase, List.map_append, ← hmt]
    simp
  case fifoLog =>
    dsimp only
    rw [hs2Pol, hs2Q, hs2LL, hs2ER, hs2FLP, hgetD]
    intro hpol
    rw [if_pos hpol]
    obtain ⟨vq, rest, hq, hlkq, hs1q⟩ := hFifo hpol
    have hvq : vq = vp := by
      obtain ⟨dq, hdq⟩ := h.ptft vq frameNum hlkq
      have hh := hdq.symm.trans hft0
      simp only [Option.some_inj, Prod.mk.injEq] at hh
      exact hh.1
    rw [hs1q, h.fifoLog hpol, hq, hvq, List.map_append]
    simp
  case dwCount =>
    dsimp only
    rw [hs2DW, hs2ER, h.dwCount, List.filter_append]
    split_ifs with hd
    · subst hd
      simp
    · simp only [Bool.not_eq_true] at hd
      subst hd
      simp
  case recW =>
    dsimp only
    rw [hs2ER, hs2FLP, hgetD]
    intro r hr
    rcases List.mem_append.mp hr with hr | hr
    · exact h.recW r hr
    · rw [List.mem_singleton] at hr
      subst hr
      exact hd0
  case dirtySem =>
    dsimp only
    rw [hs2FT, hs2FLP]
    intro f2 p2 d2 h2
    by_cases hf2 : f2 = frameNum
    · subst hf2
      rw [lookupA_insertA_self] at h2
      injection h2 with h2
      have hp2 : p2 = p ∧ d2 = decide (op = "W") := by
        have := h2.symm
        simp only [Prod.mk.injEq] at this
        exact this
      obtain ⟨he1, he2⟩ := hp2
      subst he1
      subst he2
      refine ⟨k, by rw [lookupA_insertA_self], by omega, ?_⟩
      rw [writtenInB_window_start, href]
      simp
    · rw [lookupA_insertA_ne _ _ _ hf2] at h2
      obtain ⟨i, hflp, hik, hd⟩ := h.dirtySem f2 p2 d2 h2
      have hp2p : ¬ p = p2 := by
        intro he
        have hc := h.ftpt f2 p2 d2 h2
        rw [← he, hnone] at hc
        exact absurd hc (by simp)
      refine ⟨i, by rw [lookupA_insertA_ne _ _ _ hf2]; exact hflp, by omega, ?_⟩
      rw [writtenInB_succ_other href (fun hh => hp2p hh.1)]
      exact hd

/-- The main preservation theorem: one successful `step` at position `k`
processing exactly `refs[k]` preserves the run invariant (advancing the
position), the policy and the frame count. -/
theorem step_main {refs : List Ref} {k : Nat} {s s' : SimState} {r : Ref}
    (hInv : Inv refs k s) (href : refs.get? k = some r)
    (h : step s k r = some s') :
    Inv refs (k + 1) s' ∧ s'.policy = s.policy ∧ s'.frameCount = s.frameCount := by
  obtain ⟨hcount, hrepl, htab⟩ := hInv
  obtain ⟨p, op⟩ := r
  unfold step at h
  dsimp only at h
  split at h
  · exact absurd h (by simp)
  · rename_i t hop
    have ht : t.pageTable = s.pageTable ∧ t.frameTable = s.frameTable ∧
        t.frameLoadPos = s.frameLoadPos ∧ t.evictRecords = s.evictRecords ∧
        t.loadLog = s.loadLog ∧ t.diskWrites = s.diskWrites ∧
        t.fifoQueue = s.fifoQueue ∧ t.policy = s.policy ∧
        t.frameCount = s.frameCount ∧ t.hits = s.hits ∧
        t.pageFaults = s.pageFaults ∧
        t.totalAccesses = s.totalAccesses + 1 ∧
        t.replacements = s.replacements := by
      rcases opStatUpdate_spec hop with ⟨_, hteq⟩ | ⟨_, hteq⟩ <;> subst hteq <;>
        exact ⟨rfl, rfl, rfl, rfl, rfl, rfl, rfl, rfl, rfl, rfl, rfl, rfl, rfl⟩
    obtain ⟨hT1, hT2, hT3, hT4, hT5, hT6, hT7, hT8, hT9, hT10, hT11, hT12,
      hT13⟩ := ht
    have htabt : TInv refs k t :=
      tinv_congr htab hT1 hT2 hT3 hT4 hT5 hT6 hT7 hT8 hT9
    obtain ⟨a, b, htouch⟩ := touchOpt_spec t p k
    rw [htouch] at h
    have htabu : TInv refs k { t with nextRef := a, optFutureRefs := b } :=
      tinv_congr htabt rfl rfl rfl rfl rfl rfl rfl rfl rfl
    split at h
    · -- hit
      rename_i frameNum hfound
      rcases hitUpdate_spec h with ⟨cache, hcase⟩
      rcases hcase with ⟨hnw, hs'⟩ | ⟨hw, q, d0, hft, hs'⟩
      · subst hs'
        refine ⟨⟨?_, ?_, tinv_hit_read htabu href hnw⟩, ?_, ?_⟩
        · dsimp only
          rw [hT10, hT11, hT12]
          omega
        · dsimp only
          rw [hT13, hT11]
          omega
        · dsimp only
          exact hT8
        · dsimp only
          exact hT9
      · obtain ⟨d1, hd1⟩ := htabu.ptft p frameNum hfound
        have hq : q = p ∧ d0 = d1 := by
          have hh := hft.symm.trans hd1
          simp only [Option.some_inj, Prod.mk.injEq] at hh
          exact hh
        rw [hq.1] at hft
        rw [hq.1] at hs'
        subst hs'
        subst hw
        refine ⟨⟨?_, ?_, tinv_hit_write htabu href hfound hft⟩, ?_, ?_⟩
        · dsimp only
          rw [hT10, hT11, hT12]
          omega
        · dsimp only
          rw [hT13, hT11]
          omega
        · dsimp only
          exact hT8
        · dsimp only
          exact hT9
    · -- fault
      rename_i hfault
      rcases handlePageFault_spec h with ⟨hlt, hs'⟩ |
        ⟨hge, frameNum, s1, vp, d, hsel, hft, ⟨w, hptw⟩, hs'⟩
      · subst hs'
        refine ⟨⟨?_, ?_,
          tinv_install_free
            (tinv_congr htabu rfl rfl rfl rfl rfl rfl rfl rfl rfl)
            href hfault hlt⟩, ?_, ?_⟩
        · dsimp only [installPage]
          rw [hT10, hT11, hT12]
          omega
        · dsimp only [installPage]
          rw [hT13, hT11]
          omega
        · dsimp only [installPage]
          exact hT8
        · dsimp only [installPage]
          exact hT9
      · have hsp := selectVictim_spec hsel
        obtain ⟨_, _, _, _, _, _, hsHits, hsPF, hsTA, hsRepl, hsPol, hsFC, _⟩ :=
          hsp
        have e1 : s1.hits = t.hits := hsHits
        have e2 : s1.pageFaults = t.pageFaults + 1 := hsPF
        have e3 : s1.totalAccesses = t.totalAccesses := hsTA
        have e4 : s1.replacements = t.replacements + 1 := hsRepl
        have e5 : s1.policy = t.policy := hsPol
        have e6 : s1.frameCount = t.frameCount := hsFC
        have hs2hits :
            (if d then { s1 with diskWrites := s1.diskWrites + 1 } else s1).hits
              = s1.hits := by split <;> rfl
        have hs2pf :
            (if d then { s1 with diskWrites := s1.diskWrites + 1 }
             else s1).pageFaults = s1.pageFaults := by split <;> rfl
        have hs2ta :
            (if d then { s1 with diskWrites := s1.diskWrites + 1 }
             else s1).totalAccesses = s1.totalAccesses := by split <;> rfl
        have hs2repl :
            (if d then { s1 with diskWrites := s1.diskWrites + 1 }
             else s1).replacements = s1.replacements := by split <;> rfl
        have hs2pol :
            (if d then { s1 with diskWrites := s1.diskWrites + 1 }
             else s1).policy = s1.policy := by split <;> rfl
        have hs2fc :
            (if d then { s1 with diskWrites := s1.diskWrites + 1 }
             else s1).frameCount = s1.frameCount := by split <;> rfl
        subst hs'
        refine ⟨⟨?_, ?_,
          tinv_replace htabu href hfault hsel rfl rfl rfl rfl rfl rfl rfl rfl
            rfl hft⟩, ?_, ?_⟩
        · dsimp only [installPage, evictVictim]
          rw [hs2hits, hs2pf, hs2ta, e1, e2, e3, hT10, hT11, hT12]
          omega
        · dsimp only [installPage, evictVictim]
          rw [hs2repl, hs2pf, e4, e2, hT13, hT11]
          omega
        · dsimp only [installPage, evictVictim]
          rw [hs2pol, e5]
          exact hT8
        · dsimp only [installPage, evictVictim]
          rw [hs2fc, e6]
          exact hT9

/-! ## Lifting the invariant over a whole run -/

theorem runSteps_inv {refs : List Ref} :
    ∀ (l : List Ref) (pos : Nat) (s s' : SimState),
    Inv refs pos s →
    (∀ j r, l.get? j = some r → refs.get? (pos + j) = some r) →
    runSteps s pos l = some s' →
    Inv refs (pos + l.length) s' ∧ s'.policy = s.policy ∧
      s'.frameCount = s.frameCount := by
  intro l
  induction l with
  | nil =>
      intro pos s s' hInv hsub h
      unfold runSteps at h
      injection h with h
      subst h
      exact ⟨hInv, rfl, rfl⟩
  | cons r rest ih =>
      intro pos s s' hInv hsub h
      unfold runSteps at h
      split at h
      · exact absurd h (by simp)
      · rename_i s1 hstep
        have href : refs.get? pos = some r := by
          have hh := hsub 0 r rfl
          simpa using hh
        obtain ⟨hInv1, hpol1, hfc1⟩ := step_main hInv href hstep
        have hsub1 : ∀ j rr, rest.get? j = some rr →
            refs.get? (pos + 1 + j) = some rr := by
          intro j rr hj
          have hh := hsub (j + 1) rr (by simpa using hj)
          rw [show pos + 1 + j = pos + (j + 1) by omega]
          exact hh
        obtain ⟨hInv2, hpol2, hfc2⟩ := ih (pos + 1) s1 s' hInv1 hsub1 h
        refine ⟨?_, hpol2.trans hpol1, hfc2.trans hfc1⟩
        rw [show pos + (r :: rest).length = pos + 1 + rest.length by
          simp [Nat.add_comm, Nat.add_assoc]; omega]
        exact hInv2

theorem inv_init (n : Int) (pol : String) (refs : List Ref) :
    Inv refs 0 (engineInit n pol refs) := by
  have hspec : ∃ a b, engineInit n pol refs =
      { mkSimulator n pol with nextRef := a, optFutureRefs := b } := by
    unfold engineInit
    dsimp only
    split
    · exact ⟨_, _, rfl⟩
    · exact ⟨(mkSimulator n pol).nextRef, (mkSimulator n pol).optFutureRefs,
        rfl⟩
  obtain ⟨a, b, hs⟩ := hspec
  rw [hs]
  refine ⟨rfl, Nat.le_refl 0, ?_⟩
  constructor
  · simp [mkSimulator]
  · simp [mkSimulator]
  · intro p f hp
    exact absurd hp (by simp [mkSimulator, lookupA])
  · intro f p d hp
    exact absurd hp (by simp [mkSimulator, lookupA])
  · intro e he
    simp [mkSimulator] at he
  · exact Or.inr rfl
  · intro _
    rfl
  · intro _
    rfl
  · rfl
  · intro r hr
    simp [mkSimulator] at hr
  · intro f p d hp
    exact absurd hp (by simp [mkSimulator, lookupA])

theorem engineInit_frameCount (n : Int) (pol : String) (refs : List Ref) :
    (engineInit n pol refs).frameCount = n := by
  unfold engineInit
  dsimp only
  split <;> rfl

theorem engineInit_policy (n : Int) (pol : String) (refs : List Ref) :
    (engineInit n pol refs).policy = pyLower pol := by
  unfold engineInit
  dsimp only
  split <;> rfl

theorem get_take {α : Type} :
    ∀ (nn j : Nat) (l : List α) (r : α),
    (l.take nn).get? j = some r → l.get? j = some r := by
  intro nn
  induction nn with
  | zero =>
      intro j l r h
      simp [List.take] at h
  | succ m ih =>
      intro j l r h
      cases l with
      | nil => simp at h
      | cons x xs =>
          cases j with
          | zero => simpa using h
          | succ jj =>
              simp only [List.take_succ_cons, List.get?] at h ⊢
              exact ih jj xs r h

/-- The invariant established by the engine after running on any list
`l` whose entries agree positionally with `refs` (in particular `l =
refs` or `l = refs.take k`). -/
theorem run_inv {n : Int} {pol : String} {refs l : List Ref} {s' : SimState}
    (hsub : ∀ j r, l.get? j = some r → refs.get? j = some r)
    (hrun : runSteps (engineInit n pol refs) 0 l = some s') :
    Inv refs l.length s' ∧ s'.policy = pyLower pol ∧ s'.frameCount = n := by
  obtain ⟨hInv, hpol, hfc⟩ := runSteps_inv l 0 _ s' (inv_init n pol refs)
    (by simpa using hsub) hrun
  refine ⟨by simpa using hInv, hpol.trans (engineInit_policy n pol refs),
    hfc.trans (engineInit_frameCount n pol refs)⟩

/-- A successful step requires the operation to be `R` or `W` (the
per-operation counter table has exactly those keys). -/
theorem step_op {s s' : SimState} {pos : Nat} {r : Ref}
    (h : step s pos r = some s') : r.2 = "R" ∨ r.2 = "W" := by
  obtain ⟨p, op⟩ := r
  unfold step at h
  dsimp only at h
  split at h
  · exact absurd h (by simp)
  · rename_i t hop
    rcases opStatUpdate_spec hop with ⟨h1, _⟩ | ⟨h1, _⟩
    · exact Or.inl h1
    · exact Or.inr h1

theorem runSteps_ops :
    ∀ (l : List Ref) (pos : Nat) (s s' : SimState),
    runSteps s pos l = some s' → ∀ r ∈ l, r.2 = "R" ∨ r.2 = "W" := by
  intro l
  induction l with
  | nil =>
      intro pos s s' h r hr
      simp at hr
  | cons x xs ih =>
      intro pos s s' h r hr
      unfold runSteps at h
      split at h
      · exact absurd h (by simp)
      · rename_i s1 hstep
        rcases List.mem_cons.mp hr with hr | hr
        · subst hr
          exact step_op hstep
        · exact ih (pos + 1) s1 s' h r hr

/-! ## Characterizing the OPT victim scan -/

theorem lookupA_middle {α : Type} {pre post : List (Nat × α)} {p : Nat} {v : α}
    (hnd : ((pre ++ (p, v) :: post).map Prod.fst).Nodup) :
    lookupA (pre ++ (p, v) :: post) p = some v := by
  have hnp : p ∉ pre.map Prod.fst := by
    rw [List.map_append] at hnd
    have hd := List.disjoint_of_nodup_append hnd
    intro hmem
    exact hd hmem (by simp)
  rw [lookupA_append_right _ (lookupA_eq_none.mpr hnp), lookupA_cons,
    if_pos rfl]

theorem optScan_firstNone (nr : List (Nat × Option Nat))
    (pt : List (Nat × Nat)) :
    ∀ (pre : List (Nat × Nat)) (p f : Nat) (post : List (Nat × Nat))
      (victim : Option Nat) (farthest : Int),
    (∀ e ∈ pre, nuV nr e.1 ≠ none) → nuV nr p = none →
    optScan nr pt (pre ++ (p, f) :: post) victim farthest = lookupA pt p := by
  intro pre
  induction pre with
  | nil =>
      intro p f post victim farthest _ hp
      rw [List.nil_append]
      unfold optScan
      simp only [show (lookupA nr p).getD none = none from hp]
  | cons e pre2 ih =>
      intro p f post victim farthest hpre hp
      obtain ⟨q, x⟩ := e
      have hq : nuV nr q ≠ none := hpre (q, x) (List.mem_cons_self _ _)
      rcases hv : nuV nr q with _ | v
      · exact absurd hv hq
      · rw [List.cons_append]
        unfold optScan
        simp only [show (lookupA nr q).getD none = some v from hv]
        split_ifs with hcmp
        · exact ih p f post (some q) (v : Int)
            (fun e he => hpre e (List.mem_cons_of_mem _ he)) hp
        · exact ih p f post victim farthest
            (fun e he => hpre e (List.mem_cons_of_mem _ he)) hp

theorem optScan_keep (nr : List (Nat × Option Nat)) (pt : List (Nat × Nat)) :
    ∀ (entries : List (Nat × Nat)) (vp : Nat) (fv : Int),
    (∀ e ∈ entries, ∃ v, nuV nr e.1 = some v ∧ (v : Int) ≤ fv) →
    optScan nr pt entries (some vp) fv = lookupA pt vp := by
  intro entries
  induction entries with
  | nil =>
      intro vp fv _
      rfl
  | cons e rest ih =>
      intro vp fv hall
      obtain ⟨q, x⟩ := e
      obtain ⟨v, hv, hle⟩ := hall (q, x) (List.mem_cons_self _ _)
      unfold optScan
      simp only [show (lookupA nr q).getD none = some v from hv]
      rw [if_neg (by omega)]
      exact ih vp fv (fun e he => hall e (List.mem_cons_of_mem _ he))

theorem optScan_max (nr : List (Nat × Option Nat)) (pt : List (Nat × Nat)) :
    ∀ (pre : List (Nat × Nat)) (p f : Nat) (post : List (Nat × Nat))
      (victim : Option Nat) (farthest : Int) (vp : Nat),
    nuV nr p = some vp →
    (∀ e ∈ pre, ∃ v, nuV nr e.1 = some v ∧ v < vp) →
    (∀ e ∈ post, ∃ v, nuV nr e.1 = some v ∧ v ≤ vp) →
    farthest < (vp : Int) →
    optScan nr pt (pre ++ (p, f) :: post) victim farthest = lookupA pt p := by
  intro pre
  induction pre with
  | nil =>
      intro p f post victim farthest vp hp hpre hpost hfv
      rw [List.nil_append]
      unfold optScan
      simp only [show (lookupA nr p).getD none = some vp from hp]
      rw [if_pos hfv]
      exact optScan_keep nr pt post p (vp : Int)
        (fun e he =>
          let ⟨v, hv, hle⟩ := hpost e he
          ⟨v, hv, by exact_mod_cast hle⟩)
  | cons e pre2 ih =>
      intro p f post victim farthest vp hp hpre hpost hfv
      obtain ⟨q, x⟩ := e
      obtain ⟨v, hv, hlt⟩ := hpre (q, x) (List.mem_cons_self _ _)
      rw [List.cons_append]
      unfold optScan
      simp only [show (lookupA nr q).getD none = some v from hv]
      split_ifs with hcmp
      · exact ih p f post (some q) (v : Int) vp hp
          (fun e he => hpre e (List.mem_cons_of_mem _ he)) hpost
          (by exact_mod_cast hlt)
      · exact ih p f post victim farthest vp hp
          (fun e he => hpre e (List.mem_cons_of_mem _ he)) hpost hfv

/-! ## The claims -/

/-- Claim C1: running the engine on the Belady reference string
1,2,3,4,1,2,5,1,2,3,4,5 (all reads) under FIFO yields exactly 9 page
faults with 3 frames and exactly 10 page faults with 4 frames, and OPT
on the same string with 3 frames yields a fault count (namely 7) that is
at most FIFO's 3-frame count. -/
theorem claim_C1_belady_anomaly :
    (runEngine 3 "fifo" beladyRefs).map (fun s => s.pageFaults) = some 9 ∧
    (runEngine 4 "fifo" beladyRefs).map (fun s => s.pageFaults) = some 10 ∧
    ∃ kOpt, (runEngine 3 "opt" beladyRefs).map (fun s => s.pageFaults) =
      some kOpt ∧ kOpt ≤ 9 :=
  ⟨by decide, by decide, 7, by decide, by decide⟩

/-- Claim C2 (documenting the code bug): a simulator constructed with
the unsupported policy name "clock" is accepted, and the run proceeds:
on the second reference the full frame pool forces a replacement, the
fall-through branch of `_select_victim_frame` silently returns frame 0,
and page 1 is evicted without any "unknown policy" error.  The spec
requires such a configuration to be rejected before any reference is
processed. -/
theorem claim_C2_unknown_policy_not_rejected :
    (mkSimulator 1 "clock").policy = "clock" ∧
    (runEngine 1 "clock" [(1, "R"), (2, "R")]).map
        (fun s => (s.replacements, s.pageTable,
          s.evictRecords.map fun r => r.1)) =
      some (1, [(2, 0)], [1]) :=
  ⟨by decide, by decide⟩

/-- Claim C3 (documenting the code bug): a non-positive frame count is
not rejected by the constructor (the state is built normally), and the
simulation loop is entered: processing the first reference faults with
no free frame and no resident victim, and the run aborts with a runtime
error (modelled as `none`) instead of an up-front configuration error,
both for frame count 0 and for a negative frame count. -/
theorem claim_C3_nonpositive_frames_not_rejected :
    (mkSimulator 0 "fifo").frameCount = 0 ∧
    runEngine 0 "fifo" [(1, "R")] = none ∧
    (mkSimulator (-1) "fifo").frameCount = -1 ∧
    runEngine (-1) "fifo" [(1, "R")] = none :=
  ⟨by decide, by decide, by decide, by decide⟩

/-- Claim C4: for every reference sequence, every frame count ≥ 1 and
every supported policy, a completed run satisfies
`hits + page_faults = total_accesses` and `replacements ≤ page_faults`. -/
theorem claim_C4_counter_invariants (n : Int) (pol : String)
    (refs : List Ref) (s : SimState) (hn : 1 ≤ n)
    (hpol : pol = "fifo" ∨ pol = "lru" ∨ pol = "opt")
    (hrun : runEngine n pol refs = some s) :
    s.hits + s.pageFaults = s.totalAccesses ∧
    s.replacements ≤ s.pageFaults := by
  obtain ⟨⟨h1, h2, _⟩, _, _⟩ := run_inv (fun j r h => h) hrun
  exact ⟨h1, h2⟩

theorem claim_C4_witness :
    1 ≤ (3 : Int) ∧
    (((runEngine 3 "fifo" beladyRefs).get rfl).hits +
        ((runEngine 3 "fifo" beladyRefs).get rfl).pageFaults =
        ((runEngine 3 "fifo" beladyRefs).get rfl).totalAccesses ∧
      ((runEngine 3 "fifo" beladyRefs).get rfl).replacements ≤
        ((runEngine 3 "fifo" beladyRefs).get rfl).pageFaults) :=
  ⟨by decide, claim_C4_counter_invariants 3 "fifo" beladyRefs _ (by decide)
    (Or.inl rfl)
    (@Option.some_get _ (runEngine 3 "fifo" beladyRefs) rfl).symm⟩

/-- Claim C5: at every point during a run with frame count ≥ 1 and a
supported policy — i.e. after any prefix `refs.take k` of the reference
sequence has been processed — the page table and the frame table are
mutual inverses on the resident pages, and the number of resident pages
never exceeds the configured frame count. -/
theorem claim_C5_directory_invariant (n : Int) (pol : String)
    (refs : List Ref) (k : Nat) (s : SimState) (hn : 1 ≤ n)
    (hpol : pol = "fifo" ∨ pol = "lru" ∨ pol = "opt")
    (hrun : runSteps (engineInit n pol refs) 0 (refs.take k) = some s) :
    MutualInverses s ∧ (s.pageTable.length : Int) ≤ n := by
  obtain ⟨⟨_, _, htab⟩, _, hfc⟩ :=
    run_inv (fun j r h => get_take k j refs r h) hrun
  refine ⟨⟨htab.ptNodup, htab.ftNodup, htab.ptft, htab.ftpt⟩, ?_⟩
  rcases htab.cap with hcap | hcap
  · rw [hfc] at hcap
    exact hcap
  · rw [hcap]
    simp
    omega

theorem claim_C5_witness :
    1 ≤ (3 : Int) ∧
    (MutualInverses
        ((runSteps (engineInit 3 "fifo" beladyRefs) 0
          (beladyRefs.take 5)).get rfl) ∧
      ((((runSteps (engineInit 3 "fifo" beladyRefs) 0
          (beladyRefs.take 5)).get rfl).pageTable.length : Int) ≤ 3)) :=
  ⟨by decide, claim_C5_directory_invariant 3 "fifo" beladyRefs 5 _ (by decide)
    (Or.inl rfl)
    (@Option.some_get _
      (runSteps (engineInit 3 "fifo" beladyRefs) 0 (beladyRefs.take 5))
      rfl).symm⟩

/-- Claim C6: OPT victim selection.  Under the OPT policy
`_select_victim_frame` performs the scan `optScan` over the page table
in directory iteration order (first conjunct), and the scan (a) returns
the frame of the first resident page whose `next_ref` is none when one
exists, and (b) otherwise returns the frame of the resident page with
the largest `next_ref` value, ties broken in favor of the first page
that attained the maximum (decomposition `pre ++ (p, f) :: post` with
all of `pre` strictly below and all of `post` at most the value of
`p`). -/
theorem claim_C6_opt_victim_selection :
    (∀ (s : SimState) (fr : Nat) (s1 : SimState), s.policy = "opt" →
      selectVictimFrame s = some (fr, s1) →
      s1 = s ∧
        optScan s.nextRef s.pageTable s.pageTable none (-1) = some fr) ∧
    (∀ (nr : List (Nat × Option Nat)) (pre post : List (Nat × Nat))
        (p f : Nat),
      ((pre ++ (p, f) :: post).map Prod.fst).Nodup →
      nuV nr p = none → (∀ e ∈ pre, nuV nr e.1 ≠ none) →
      optScan nr (pre ++ (p, f) :: post) (pre ++ (p, f) :: post) none (-1) =
        some f) ∧
    (∀ (nr : List (Nat × Option Nat)) (pre post : List (Nat × Nat))
        (p f vp : Nat),
      ((pre ++ (p, f) :: post).map Prod.fst).Nodup →
      nuV nr p = some vp →
      (∀ e ∈ pre, ∃ v, nuV nr e.1 = some v ∧ v < vp) →
      (∀ e ∈ post, ∃ v, nuV nr e.1 = some v ∧ v ≤ vp) →
      optScan nr (pre ++ (p, f) :: post) (pre ++ (p, f) :: post) none (-1) =
        some f) := by
  refine ⟨?_, ?_, ?_⟩
  · intro s fr s1 hpol hsel
    unfold selectVictimFrame at hsel
    rw [if_neg (by rw [hpol]; decide), if_neg (by rw [hpol]; decide),
      if_pos hpol] at hsel
    split at hsel
    · exact absurd hsel (by simp)
    · rename_i f hscan
      injection hsel with hsel
      injection hsel with h1 h2
      subst h1
      subst h2
      exact ⟨rfl, hscan⟩
  · intro nr pre post p f hnd hp hpre
    rw [optScan_firstNone nr _ pre p f post none (-1) hpre hp]
    exact lookupA_middle hnd
  · intro nr pre post p f vp hnd hp hpre hpost
    rw [optScan_max nr _ pre p f post none (-1) vp hp hpre hpost (by omega)]
    exact lookupA_middle hnd

theorem claim_C6_witness :
    (mkSimulator 1 "opt" = mkSimulator 1 "opt" ∧
      optScan (mkSimulator 1 "opt").nextRef (mkSimulator 1 "opt").pageTable
        (mkSimulator 1 "opt").pageTable none (-1) = some 0) ∧
    optScan [] ([] ++ (1, 0) :: []) ([] ++ (1, 0) :: []) none (-1) = some 0 ∧
    optScan [(1, some 5), (2, some 9)] ([(1, 0)] ++ (2, 1) :: [])
      ([(1, 0)] ++ (2, 1) :: []) none (-1) = some 1 :=
  ⟨claim_C6_opt_victim_selection.1 (mkSimulator 1 "opt") 0 (mkSimulator 1 "opt")
      (by decide) (by decide),
   claim_C6_opt_victim_selection.2.1 [] [] [] 1 0 (by decide) (by decide)
      (by intro e he; simp at he),
   claim_C6_opt_victim_selection.2.2 [(1, some 5), (2, some 9)] [(1, 0)] []
      2 1 9 (by decide) (by decide)
      (by
        intro e he
        simp only [List.mem_singleton] at he
        subst he
        exact ⟨5, by decide, by decide⟩)
      (by intro e he; simp at he)⟩

/-- Claim C7: FIFO eviction order.  For every completed FIFO run with
frame count ≥ 1, the ghost eviction log concatenated with the FIFO queue
equals the ghost load log (pages in fresh-load order), the queue lists
exactly the resident pages in load order, and hence the sequence of
evicted pages is an initial segment of the load order — evictions happen
in exactly the order pages were loaded, independent of hit activity. -/
theorem claim_C7_fifo_eviction_order (n : Int) (refs : List Ref)
    (s : SimState) (hn : 1 ≤ n)
    (hrun : runEngine n "fifo" refs = some s) :
    (s.evictRecords.map fun r => r.1) ++ s.fifoQueue = s.loadLog ∧
    s.fifoQueue = s.pageTable.map Prod.fst ∧
    ∃ tail, s.loadLog = (s.evictRecords.map fun r => r.1) ++ tail := by
  obtain ⟨⟨_, _, htab⟩, hpol, _⟩ := run_inv (fun j r h => h) hrun
  have hp : s.policy = "fifo" := by
    rw [hpol]
    decide
  exact ⟨(htab.fifoLog hp).symm, htab.fifoQ hp,
    ⟨s.fifoQueue, htab.fifoLog hp⟩⟩

theorem claim_C7_witness :
    1 ≤ (3 : Int) ∧
    ((((runEngine 3 "fifo" beladyRefs).get rfl).evictRecords.map
          fun r => r.1) ++
        ((runEngine 3 "fifo" beladyRefs).get rfl).fifoQueue =
        ((runEngine 3 "fifo" beladyRefs).get rfl).loadLog ∧
      ((runEngine 3 "fifo" beladyRefs).get rfl).fifoQueue =
        ((runEngine 3 "fifo" beladyRefs).get rfl).pageTable.map Prod.fst ∧
      ∃ tail, ((runEngine 3 "fifo" beladyRefs).get rfl).loadLog =
        (((runEngine 3 "fifo" beladyRefs).get rfl).evictRecords.map
          fun r => r.1) ++ tail) :=
  ⟨by decide, claim_C7_fifo_eviction_order 3 beladyRefs _ (by decide)
    (@Option.some_get _ (runEngine 3 "fifo" beladyRefs) rfl).symm⟩

/-- Claim C8: for frame count ≥ 1 and an empty reference sequence the
run completes (no error), all counters are zero, and `get_stats`
returns the defined empty result (the Python empty dict, modelled as
`none`) without performing any rate division. -/
theorem claim_C8_empty_run (n : Int) (pol : String) (hn : 1 ≤ n) :
    runEngine n pol [] = some (engineInit n pol []) ∧
    (engineInit n pol []).totalAccesses = 0 ∧
    (engineInit n pol []).hits = 0 ∧
    (engineInit n pol []).pageFaults = 0 ∧
    (engineInit n pol []).replacements = 0 ∧
    (engineInit n pol []).diskWrites = 0 ∧
    getStats (engineInit n pol []) = none := by
  have hspec : ∃ a b, engineInit n pol [] =
      { mkSimulator n pol with nextRef := a, optFutureRefs := b } := by
    unfold engineInit
    dsimp only
    split
    · exact ⟨_, _, rfl⟩
    · exact ⟨(mkSimulator n pol).nextRef, (mkSimulator n pol).optFutureRefs,
        rfl⟩
  obtain ⟨a, b, hs⟩ := hspec
  refine ⟨rfl, ?_, ?_, ?_, ?_, ?_, ?_⟩ <;> rw [hs] <;> rfl

theorem claim_C8_witness :
    1 ≤ (2 : Int) ∧
    (runEngine 2 "lru" [] = some (engineInit 2 "lru" []) ∧
      (engineInit 2 "lru" []).totalAccesses = 0 ∧
      (engineInit 2 "lru" []).hits = 0 ∧
      (engineInit 2 "lru" []).pageFaults = 0 ∧
      (engineInit 2 "lru" []).replacements = 0 ∧
      (engineInit 2 "lru" []).diskWrites = 0 ∧
      getStats (engineInit 2 "lru" []) = none) :=
  ⟨by decide, claim_C8_empty_run 2 "lru" (by decide)⟩

/-- Claim C9: the disk-write counter counts exactly the evictions whose
victim frame was dirty, and a victim frame is dirty exactly when its
page was written between its load position and its eviction position
(dirty at load by a write, or written by a later hit).  Consequently
`disk_writes` equals the number of ghost eviction records whose victim
was written since it was loaded. -/
theorem claim_C9_disk_writes (n : Int) (pol : String) (refs : List Ref)
    (s : SimState) (hn : 1 ≤ n)
    (hpol : pol = "fifo" ∨ pol = "lru" ∨ pol = "opt")
    (hrun : runEngine n pol refs = some s) :
    s.diskWrites = (s.evictRecords.filter fun r => r.2.2.2).length ∧
    (∀ r ∈ s.evictRecords, r.2.2.2 = writtenInB refs r.1 r.2.1 r.2.2.1) ∧
    s.diskWrites = (s.evictRecords.filter fun r =>
      writtenInB refs r.1 r.2.1 r.2.2.1).length := by
  obtain ⟨⟨_, _, htab⟩, _, _⟩ := run_inv (fun j r h => h) hrun
  refine ⟨htab.dwCount, htab.recW, ?_⟩
  rw [htab.dwCount]
  congr 1
  exact List.filter_congr (fun r hr => htab.recW r hr)

theorem claim_C9_witness :
    1 ≤ (2 : Int) ∧
    (((runEngine 2 "fifo" [(1, "W"), (2, "R"), (3, "R")]).get rfl).diskWrites =
        (((runEngine 2 "fifo" [(1, "W"), (2, "R"), (3, "R")]).get
          rfl).evictRecords.filter fun r => r.2.2.2).length ∧
      (∀ r ∈ ((runEngine 2 "fifo" [(1, "W"), (2, "R"), (3, "R")]).get
          rfl).evictRecords,
        r.2.2.2 = writtenInB [(1, "W"), (2, "R"), (3, "R")] r.1 r.2.1
          r.2.2.1) ∧
      ((runEngine 2 "fifo" [(1, "W"), (2, "R"), (3, "R")]).get rfl).diskWrites
        = (((runEngine 2 "fifo" [(1, "W"), (2, "R"), (3, "R")]).get
          rfl).evictRecords.filter fun r =>
            writtenInB [(1, "W"), (2, "R"), (3, "R")] r.1 r.2.1
              r.2.2.1).length) :=
  ⟨by decide, claim_C9_disk_writes 2 "fifo" [(1, "W"), (2, "R"), (3, "R")] _
    (by decide) (Or.inl rfl)
    (@Option.some_get _
      (runEngine 2 "fifo" [(1, "W"), (2, "R"), (3, "R")]) rfl).symm⟩

/-- Claim C10: `simulate` is only defined when every reference's
operation is `R` or `W` (the per-operation counter table has only those
keys), yet `load_trace_file` produces a reference from any line with two
tokens whose first parses as hexadecimal, without validating the second
token: the line "1000 X" yields the reference `(1, "X")`, on which the
engine's counter update has no defined result. -/
theorem claim_C10_unvalidated_operation :
    (∀ (s0 : SimState) (refs : List Ref) (s1 : SimState),
      simulate s0 refs = some s1 → ∀ r ∈ refs, r.2 = "R" ∨ r.2 = "W") ∧
    loadTrace ["1000 X".data] = [(1, "X")] ∧
    runEngine 1 "fifo" [(1, "X")] = none := by
  refine ⟨?_, by decide, by decide⟩
  intro s0 refs s1 h r hr
  exact runSteps_ops refs 0 s0 s1 h r hr

theorem claim_C10_witness :
    ((1 : Nat), "R").2 = "R" ∨ ((1 : Nat), "R").2 = "W" :=
  claim_C10_unvalidated_operation.1 (mkSimulator 1 "fifo") [(1, "R")]
    ((simulate (mkSimulator 1 "fifo") [(1, "R")]).get rfl)
    (@Option.some_get _ (simulate (mkSimulator 1 "fifo") [(1, "R")])
      rfl).symm (1, "R") (by simp)

end VMSim
